import Mathlib

/-!
# Verification of the WordUp background service worker core

Shallow embedding of `src/background/service-worker.js`: the in-memory
LRU session cache (`LRUCache`), the persistent expiring cache backed by
`chrome.storage.local` (`persistentCache`), the rate limiter
(`rateLimiter`), the error log (`logError`), the dictionary response
sanitizer (`api.sanitizeDictionaryResponse`), the tone rewriter
(`api.rewriteTone`) and the tiered lookup (`api.lookupMeaning`).

JavaScript `Map` iteration order (insertion order) is modelled by an
association list whose head is the oldest entry.  Time is modelled in
integer milliseconds (`Nat`).  Fallible external collaborators
(`chrome.storage.local`, `fetch`) are modelled by `Except` parameters
that stand for the outcome the external call produces.
-/

namespace WordUp

/-! ## JavaScript `Map` on association lists

`mapFind`, `mapSet` and `mapDelete` embed `Map.get`/`has`,
`Map.set` and `Map.delete`.  A JS `Map` remembers insertion order:
`set` of a fresh key appends at the end, `set` of a present key updates
the value in place (the key keeps its position), `delete` removes the
key, and iteration (`keys().next().value`) starts at the oldest entry,
which is the head of the list here. -/

def mapFind {α : Type} (k : String) : List (String × α) → Option α
  | [] => none
  | p :: rest => if p.1 = k then some p.2 else mapFind k rest

def mapSet {α : Type} (k : String) (v : α) : List (String × α) → List (String × α)
  | [] => [(k, v)]
  | p :: rest => if p.1 = k then (k, v) :: rest else p :: mapSet k v rest

def mapDelete {α : Type} (k : String) (l : List (String × α)) : List (String × α) :=
  l.filter (fun p => p.1 ≠ k)

/-! ## LRU cache (service-worker.js lines 32-57)

```js
get(key) {
    if (!this.cache.has(key)) return null;
    const value = this.cache.get(key);
    this.cache.delete(key);
    this.cache.set(key, value); // Move to end (most recently used)
    return value;
}
set(key, value) {
    if (this.cache.size >= this.maxSize) {
        const oldestKey = this.cache.keys().next().value;
        this.cache.delete(oldestKey);
    }
    this.cache.set(key, value);
}
```
Note that `set` does not move an existing key to the end (JS `Map.set`
keeps the position of a present key) and unconditionally deletes the
oldest key whenever `size >= maxSize`, even when `key` is already
present. -/

structure LRU (α : Type) where
  maxSize : Nat
  entries : List (String × α)
deriving Repr, DecidableEq

def lruGet {α : Type} (k : String) (c : LRU α) : Option α × LRU α :=
  match mapFind k c.entries with
  | none => (none, c)
  | some v => (some v, { c with entries := mapSet k v (mapDelete k c.entries) })

def lruSet {α : Type} (k : String) (v : α) (c : LRU α) : LRU α :=
  let base :=
    if c.maxSize ≤ c.entries.length then
      match c.entries with
      | [] => ([] : List (String × α))
      | _ :: rest => rest
    else c.entries
  { c with entries := mapSet k v base }

def lruHas {α : Type} (k : String) (c : LRU α) : Bool :=
  (mapFind k c.entries).isSome

/-! ## Error log (service-worker.js lines 117-143)

`logError` prepends a record (`errorLogs.unshift`) and drops the last
record (`errorLogs.pop`) when the length exceeds `maxLogSize` (100).
The timestamp and the structured detail payload are summarised by a
single detail string; claims never inspect them beyond the source tag. -/

structure ErrRec where
  source : String
  details : String
deriving Repr, DecidableEq

def maxLogSize : Nat := 100

def logErrorFn (source details : String) (logs : List ErrRec) : List ErrRec :=
  let l := ⟨source, details⟩ :: logs
  if maxLogSize < l.length then l.dropLast else l

/-! ## Normalized definition record (output of `sanitizeDictionaryResponse`) -/

structure NormDef where
  word : String
  phonetic : Option String
  meaning : String
  synonyms : List String
  antonyms : List String
deriving Repr, DecidableEq

/-! ## Persistent cache (service-worker.js lines 62-88)

```js
async get(key) {
    try {
        const result = await chrome.storage.local.get(key);
        if (!result[key]) return null;
        const item = result[key];
        if (Date.now() > item.expires) {
            await chrome.storage.local.remove(key);
            return null;
        }
        return item.value;
    } catch (error) {
        logError('persistentCache.get', { error });
        return null;
    }
},
async set(key, value) {
    try {
        const expires = Date.now() + config.cacheTTL;
        await chrome.storage.local.set({ [key]: { value, expires } });
    } catch (error) {
        logError('persistentCache.set', { error });
    }
}
```
`persistentCacheGetCore` takes the outcome of the backing
`chrome.storage.local.get` read as an `Except` parameter; a throwing
read is `Except.error`.  `persistentCacheGet` is the non-throwing
instantiation where the read returns the backing store's content. -/

structure StoredItem where
  value : NormDef
  expires : Nat
deriving Repr, DecidableEq

def persistentCacheGetCore (k : String) (read : Except String (Option StoredItem))
    (now : Nat) (st : List (String × StoredItem)) (logs : List ErrRec) :
    Option NormDef × List (String × StoredItem) × List ErrRec :=
  match read with
  | .error e => (none, st, logErrorFn "persistentCache.get" e logs)
  | .ok none => (none, st, logs)
  | .ok (some item) =>
    if item.expires < now then (none, mapDelete k st, logs)
    else (some item.value, st, logs)

def persistentCacheGet (k : String) (now : Nat) (st : List (String × StoredItem))
    (logs : List ErrRec) : Option NormDef × List (String × StoredItem) × List ErrRec :=
  persistentCacheGetCore k (Except.ok (mapFind k st)) now st logs

def persistentCacheSet (k : String) (v : NormDef) (now ttl : Nat)
    (st : List (String × StoredItem)) : List (String × StoredItem) :=
  mapSet k ⟨v, now + ttl⟩ st

/-! ## Dictionary response shape and sanitizer (service-worker.js lines 217-239)

```js
sanitizeDictionaryResponse(data) {
    if (!Array.isArray(data) || data.length === 0) return null;
    const firstResult = data[0];
    const meaning = firstResult.meanings?.[0]?.definitions?.[0]?.definition;
    const allSynonyms = new Set();
    const allAntonyms = new Set();
    if (!meaning) return null;
    firstResult.meanings?.forEach(m => {
        m.synonyms?.forEach(s => allSynonyms.add(s));
        m.antonyms?.forEach(a => allAntonyms.add(a));
    });
    return {
        word: firstResult.word,
        phonetic: firstResult.phonetic || firstResult.phonetics?.find(p => p.text)?.text,
        meaning,
        synonyms: Array.from(allSynonyms),
        antonyms: Array.from(allAntonyms),
    };
}
```
A JS `Set` keeps insertion order and `Array.from` reads it back, so the
synonym collection is the fold `addUnique` over the concatenation of
the `synonyms` arrays of all meaning groups of the first result.  The
falsy test `if (!meaning)` rejects both a missing and an empty
definition string; `jsTruthyOpt` embeds string truthiness. -/

structure PhoneticEntry where
  text : Option String
deriving Repr, DecidableEq

structure DictDefinition where
  definition : Option String
deriving Repr, DecidableEq

structure DictMeaning where
  definitions : List DictDefinition
  synonyms : List String
  antonyms : List String
deriving Repr, DecidableEq

structure DictResult where
  word : String
  phonetic : Option String
  phonetics : List PhoneticEntry
  meanings : List DictMeaning
deriving Repr, DecidableEq

def jsTruthyOpt : Option String → Bool
  | none => false
  | some s => !(s = "")

def addUnique (acc : List String) (s : String) : List String :=
  if s ∈ acc then acc else acc ++ [s]

def dedupUnion (l : List String) : List String :=
  l.foldl addUnique []

def firstDefinition (fr : DictResult) : Option String :=
  ((fr.meanings.head?.bind (fun m => m.definitions.head?)).bind
    (fun d => d.definition))

def sanitizeDictionaryResponse (data : List DictResult) : Option NormDef :=
  match data with
  | [] => none
  | firstResult :: _ =>
    match firstDefinition firstResult with
    | none => none
    | some meaning =>
      if meaning = "" then none
      else
        some
          { word := firstResult.word
            phonetic :=
              if jsTruthyOpt firstResult.phonetic then firstResult.phonetic
              else (firstResult.phonetics.find? (fun p => jsTruthyOpt p.text)).bind
                (fun p => p.text)
            meaning := meaning
            synonyms := dedupUnion (firstResult.meanings.flatMap (fun m => m.synonyms))
            antonyms := dedupUnion (firstResult.meanings.flatMap (fun m => m.antonyms)) }

/-! ## Tone rewriting (service-worker.js lines 241-296)

`config.apiKeys.gemini` is `null` until configured; `if
(!config.apiKeys.gemini)` is the falsy test embedded by `jsTruthyOpt`.
The network interaction is summarised by a `GeminiFetch` parameter: the
outcome that the `fetch` of the Gemini endpoint would produce
(`netFail` = the fetch itself rejects; `resp` = a response with its
`ok` flag, status, the parsed Google error message if the error body
was JSON, the candidate text if present, and the prompt-feedback block
reason if present).  The third component of the result records whether
the fetch primitive was invoked at all. -/

structure RewriteResult where
  success : Bool
  rtype : Option String := none
  data : Option String := none
  error : Option String := none
deriving Repr, DecidableEq

inductive GeminiFetch where
  | netFail (msg : String)
  | resp (ok : Bool) (status : Nat) (errMsg : Option String)
      (candidate : Option String) (blockReason : Option String)
deriving Repr, DecidableEq

def rewriteTone (text tone : String) (geminiKey : Option String)
    (fetch : GeminiFetch) (logs : List ErrRec) :
    RewriteResult × List ErrRec × Bool :=
  if jsTruthyOpt geminiKey then
    match fetch with
    | .netFail m =>
      ({ success := false, error := some m }, logErrorFn "api.rewriteTone" m logs, true)
    | .resp ok status errMsg candidate blockReason =>
      if ok then
        let candText : Option String :=
          match candidate with
          | some t => if t = "" then none else some t
          | none => none
        match candText with
        | some t =>
          ({ success := true, rtype := some "rewritten", data := some t.trim }, logs, true)
        | none =>
          match blockReason with
          | some br =>
            let msg := "Content blocked by API: " ++ br
            ({ success := false, error := some msg }, logErrorFn "api.rewriteTone" msg logs, true)
          | none =>
            let msg := "Invalid response structure from Gemini API."
            ({ success := false, error := some msg }, logErrorFn "api.rewriteTone" msg logs, true)
      else
        let errorDetails :=
          match errMsg with
          | some m => (m.splitOn " API key").headD m
          | none => "HTTP error! status: " ++ toString status
        ({ success := false, error := some errorDetails },
         logErrorFn "api.rewriteTone" errorDetails logs, true)
  else
    let errorMessage := "Gemini API key is not configured."
    ({ success := false, error := some errorMessage },
     logErrorFn "api.rewriteTone" errorMessage logs, false)

/-! ## Tiered lookup (service-worker.js lines 161-215)

```js
async lookupMeaning(text) {
    const cacheKey = `meaning_${text.toLowerCase()}`;
    let data = sessionCache.get(cacheKey);
    if (data) return { success: true, data, source: 'session' };
    data = await persistentCache.get(cacheKey);
    if (data) {
        sessionCache.set(cacheKey, data); // Hydrate session cache
        return { success: true, data, source: 'persistent' };
    }
    return new Promise(resolve => {
        rateLimiter.add(async () => { ... });
    });
}
```
The world state bundles the session cache, the persistent backing
store and the error log.  The network action that both tiers falling
through would enqueue on the rate limiter is evaluated with its fetch
outcome (`Except.ok raw` = HTTP 2xx with parsed JSON `raw`,
`Except.error` = network failure / non-2xx / JSON parse failure, which
the catch block logs).  `enqueuedFetch` records whether a network
action was enqueued on the rate limiter at all. -/

structure LookupResult where
  success : Bool
  rtype : Option String := none
  data : Option NormDef := none
  source : Option String := none
  error : Option String := none
deriving Repr, DecidableEq

structure SWState where
  session : LRU NormDef
  storage : List (String × StoredItem)
  errorLogs : List ErrRec
deriving Repr, DecidableEq

structure LookupOutcome where
  result : LookupResult
  state : SWState
  enqueuedFetch : Bool
deriving Repr, DecidableEq

def jsToLowerCase (s : String) : String :=
  String.mk (s.data.map Char.toLower)

def lookupCacheKey (text : String) : String :=
  "meaning_" ++ jsToLowerCase text

def lookupMeaning (text : String) (now ttl : Nat)
    (fetch : Except String (List DictResult)) (w : SWState) : LookupOutcome :=
  let cacheKey := lookupCacheKey text
  match lruGet cacheKey w.session with
  | (some data, session') =>
    ⟨{ success := true, data := some data, source := some "session" },
     { w with session := session' }, false⟩
  | (none, _) =>
    match persistentCacheGet cacheKey now w.storage w.errorLogs with
    | (some data, storage', logs') =>
      ⟨{ success := true, data := some data, source := some "persistent" },
       { session := lruSet cacheKey data w.session, storage := storage', errorLogs := logs' },
       false⟩
    | (none, storage', logs') =>
      match fetch with
      | .ok raw =>
        match sanitizeDictionaryResponse raw with
        | some nd =>
          ⟨{ success := true, rtype := some "definition", data := some nd, source := some "api" },
           { session := lruSet cacheKey nd w.session
             storage := persistentCacheSet cacheKey nd now ttl storage'
             errorLogs := logs' },
           true⟩
        | none =>
          ⟨{ success := false, error := some "Failed to fetch definition." },
           { session := w.session, storage := storage', errorLogs := logs' }, true⟩
      | .error e =>
        ⟨{ success := false, error := some "Failed to fetch definition." },
         { session := w.session, storage := storage'
           errorLogs := logErrorFn "api.lookupMeaning (Primary)" e logs' },
         true⟩

/-! ## Rate limiter (service-worker.js lines 91-115)

```js
const rateLimiter = {
    queue: [],
    isProcessing: false,
    requestsPerSecond: 5,
    processQueue() {
        if (this.isProcessing || this.queue.length === 0) return;
        this.isProcessing = true;
        const interval = 1000 / this.requestsPerSecond;
        const timerId = setInterval(() => {
            if (this.queue.length > 0) {
                const request = this.queue.shift();
                request();
            } else {
                clearInterval(timerId);
                this.isProcessing = false;
            }
        }, interval);
    },
    add(request) {
        this.queue.push(request);
        this.processQueue();
    },
};
```
Discrete-event model over millisecond time.  Actions are identified by
`Nat` ids; `started` logs `(action, startTime)` pairs in start order.
`nextFire` is the absolute time at which the single `setInterval`
timer fires next (the first fire of a fresh timer is one interval
after `processQueue` ran, never immediately).  At each millisecond the
simulation first delivers the `add` calls scheduled for that instant
and then fires the timer if it is due.  The callback invokes
`request()` WITHOUT awaiting the returned promise (line 104), so the
timer's schedule - and hence every later start - is independent of how
long the started actions take to run; completion times play no role in
the transition function, exactly as in the source. -/

structure PacerState where
  queue : List Nat
  isProcessing : Bool
  nextFire : Option Nat
  started : List (Nat × Nat)
deriving Repr, DecidableEq

def pacerInit : PacerState := ⟨[], false, none, []⟩

def pacerAdd (interval t : Nat) (a : Nat) (s : PacerState) : PacerState :=
  let s1 := { s with queue := s.queue ++ [a] }
  if s1.isProcessing || s1.queue.isEmpty then s1
  else { s1 with isProcessing := true, nextFire := some (t + interval) }

def pacerTick (interval t : Nat) (s : PacerState) : PacerState :=
  match s.queue with
  | [] => { s with nextFire := none, isProcessing := false }
  | a :: rest =>
    { s with queue := rest, started := s.started ++ [(a, t)], nextFire := some (t + interval) }

def addsAt (sched : List (Nat × Nat)) (t : Nat) : List Nat :=
  (sched.filter (fun p => p.1 = t)).map (fun p => p.2)

def pacerFire (interval t : Nat) (s : PacerState) : PacerState :=
  match s.nextFire with
  | some tf => if tf ≤ t then pacerTick interval t s else s
  | none => s

def pacerStep (interval : Nat) (sched : List (Nat × Nat)) (t : Nat) (s : PacerState) :
    PacerState :=
  pacerFire interval t ((addsAt sched t).foldl (fun st a => pacerAdd interval t a st) s)

def pacerRun (interval : Nat) (sched : List (Nat × Nat)) (T : Nat) : PacerState :=
  (List.range T).foldl (fun s t => pacerStep interval sched t s) pacerInit

/-- The inter-fire interval of the timer: `1000 / this.requestsPerSecond`
(line 100); the configured default rate is 5 requests per second. -/
def rlInterval (requestsPerSecond : Nat) : Nat := 1000 / requestsPerSecond

/-- The enqueue order induced by an add schedule: adds are delivered in
time order, ties broken by schedule-list order. -/
def enqSeq (sched : List (Nat × Nat)) (T : Nat) : List Nat :=
  (List.range T).flatMap (addsAt sched)

/-- Completion time of a started action given the durations of the
actions: an action started at time `p.2` whose body runs for
`d p.1` milliseconds completes at `p.2 + d p.1`.  The rate limiter
never consults this (it does not await `request()`). -/
def completionTime (d : Nat → Nat) (p : Nat × Nat) : Nat := p.2 + d p.1

/-! ## Instrumented LRU traces (for the recency-eviction claims)

A trace of `get`/`set` calls against a fresh `LRUCache`, instrumented
with the last-access time of every key: `set` and a `get` that hits
both count as an access; time advances by one per operation. -/

inductive CacheOp (α : Type) where
  | setOp (k : String) (v : α)
  | getOp (k : String)
deriving Repr, DecidableEq

structure LRURun (α : Type) where
  cache : LRU α
  access : String → Nat
  time : Nat

def lruStep {α : Type} (s : LRURun α) : CacheOp α → LRURun α
  | .getOp k =>
    match lruGet k s.cache with
    | (none, _) => { s with time := s.time + 1 }
    | (some _, c') =>
      { cache := c'
        access := fun k' => if k' = k then s.time else s.access k'
        time := s.time + 1 }
  | .setOp k v =>
    { cache := lruSet k v s.cache
      access := fun k' => if k' = k then s.time else s.access k'
      time := s.time + 1 }

def lruRun {α : Type} (N : Nat) (ops : List (CacheOp α)) : LRURun α :=
  ops.foldl lruStep ⟨⟨N, []⟩, fun _ => 0, 0⟩

/-- The keys inserted (`set`) by a trace, in order. -/
def setKeys {α : Type} (ops : List (CacheOp α)) : List String :=
  ops.filterMap (fun op => match op with | .setOp k _ => some k | .getOp _ => none)

def cacheKeys {α : Type} (c : LRU α) : List String :=
  c.entries.map (fun p => p.1)

/-! ## Concrete inputs used by the witnesses and counterexamples -/

/-- A concrete normalized definition record. -/
def c4Def : NormDef := ⟨"hello", none, "A greeting", ["hi"], []⟩

/-- A concrete normalized definition record for the lookup witness. -/
def c1Def : NormDef := ⟨"hello", none, "A greeting", ["hi"], []⟩

/-- A raw dictionary response that sanitizes to `c1Def`. -/
def c1Raw : List DictResult :=
  [⟨"hello", none, [], [⟨[⟨some "A greeting"⟩], ["hi"], []⟩]⟩]

/-- World whose session cache already holds the key `meaning_hello`. -/
def c1SessionWorld : SWState := ⟨⟨50, [("meaning_hello", c1Def)]⟩, [], []⟩

/-- World with a cold session cache and an unexpired persistent entry. -/
def c1PersistentWorld : SWState := ⟨⟨50, []⟩, [("meaning_hello", ⟨c1Def, 100⟩)], []⟩

/-- Entirely cold world: both tiers miss. -/
def c1ColdWorld : SWState := ⟨⟨50, []⟩, [], []⟩

/-- The spec's own round-trip example: two meaning groups whose synonym
lists overlap. -/
def c8Raw : List DictResult :=
  [⟨"hello", none, [],
    [⟨[⟨some "A greeting"⟩], ["happy", "glad"], []⟩,
     ⟨[], ["glad", "happy"], ["sad"]⟩]⟩]

/-- The record `c8Raw` sanitizes to. -/
def c8Rec : NormDef := ⟨"hello", none, "A greeting", ["happy", "glad"], ["sad"]⟩

/-- Trace for the eviction witness: capacity 2, insert `a`, insert `b`,
then `get a` (which must make `b` the least recently used). -/
def c2Ops : List (CacheOp Nat) :=
  [CacheOp.setOp "a" 1, CacheOp.setOp "b" 2, CacheOp.getOp "a"]

/-- Durations for the overlap counterexample: action 1 runs for
1000 ms, every other action is instantaneous. -/
def c7Dur : Nat → Nat := fun a => if a = 1 then 1000 else 0

/-! ## Association list lemmas -/

theorem mapFind_mapSet_self {α : Type} (k : String) (v : α) (l : List (String × α)) :
    mapFind k (mapSet k v l) = some v := by
  induction l with
  | nil => simp [mapSet, mapFind]
  | cons p rest ih =>
    by_cases h : p.1 = k
    · simp [mapSet, h, mapFind]
    · simp [mapSet, h, mapFind, ih]

theorem mapFind_mapDelete_self {α : Type} (k : String) (l : List (String × α)) :
    mapFind k (mapDelete k l) = none := by
  induction l with
  | nil => simp [mapDelete, mapFind]
  | cons p rest ih =>
    by_cases h : p.1 = k
    · simpa [mapDelete, h] using ih
    · simpa [mapDelete, mapFind, h] using ih

theorem mapFind_eq_none_iff {α : Type} (k : String) (l : List (String × α)) :
    mapFind k l = none ↔ ∀ p ∈ l, p.1 ≠ k := by
  induction l with
  | nil => simp [mapFind]
  | cons p rest ih =>
    by_cases h : p.1 = k
    · simp [mapFind, h]
    · simp [mapFind, h, ih]

theorem mapSet_eq_append {α : Type} (k : String) (v : α) (l : List (String × α))
    (h : ∀ p ∈ l, p.1 ≠ k) : mapSet k v l = l ++ [(k, v)] := by
  induction l with
  | nil => simp [mapSet]
  | cons p rest ih =>
    have hp : p.1 ≠ k := h p (by simp)
    simp only [mapSet, if_neg hp, List.cons_append, List.cons.injEq, true_and]
    exact ih (fun q hq => h q (by simp [hq]))

theorem logErrorFn_head (s d : String) (logs : List ErrRec) :
    (logErrorFn s d logs).head? = some ⟨s, d⟩ := by
  unfold logErrorFn
  simp only []
  split
  · rename_i h
    match logs with
    | [] => simp [maxLogSize] at h
    | x :: xs => simp
  · simp

/-! ## Claim theorems -/

/-- Claim C3 (code bug): `LRUCache.set` on a key already present does
NOT mark it most-recently-used and, when the cache is at capacity, it
evicts another entry.  With capacity 2 and contents `a, b` (oldest
first), `set("b", 9)` deletes `a` and leaves only `b`; with capacity 3
and contents `a, b`, `set("a", 9)` leaves `a` in the oldest position,
so two further fresh inserts evict `a` rather than `b`. -/
theorem lruSet_existing_key_bug :
    (lruSet "b" 9 (lruSet "b" 1 (lruSet "a" 0 (⟨2, []⟩ : LRU Nat)))).entries = [("b", 9)] ∧
    (lruSet "a" 9 (lruSet "b" 1 (lruSet "a" 0 (⟨3, []⟩ : LRU Nat)))).entries
      = [("a", 9), ("b", 1)] ∧
    (lruSet "d" 3 (lruSet "c" 2 (lruSet "a" 9 (lruSet "b" 1
        (lruSet "a" 0 (⟨3, []⟩ : LRU Nat)))))).entries
      = [("b", 1), ("c", 2), ("d", 3)] := by
  refine ⟨?_, ?_, ?_⟩ <;> decide

/-- Claim C4 (counterexample): at the exact boundary
`now - writeTime = T` the store still returns the value.  Write at
time 0 with TTL 5, read at time 5: `5 - 0 ≥ 5`, yet `get` does not
return absent, because the code expires only when `Date.now() >
item.expires` (strictly greater). -/
theorem persistent_boundary_counterexample :
    (5 : Nat) - 0 ≥ 5 ∧
    (persistentCacheGet "k" 5 (persistentCacheSet "k" c4Def 0 5 []) []).1
      = some c4Def := by
  exact ⟨by decide, by decide⟩

/-- Claim C4 (amended): for every entry written to the Durable
Expiring Store at `writeTime` with TTL `T`, a `get` at time `now`
returns the stored value whenever `now ≤ writeTime + T` (equivalently
`now - writeTime ≤ T`), and whenever `now > writeTime + T` it returns
absent and deletes the record from the backing store. -/
theorem persistent_ttl_expiry (k : String) (v : NormDef) (writeTime T now : Nat)
    (st : List (String × StoredItem)) (logs : List ErrRec) :
    (now ≤ writeTime + T →
      persistentCacheGet k now (persistentCacheSet k v writeTime T st) logs
        = (some v, persistentCacheSet k v writeTime T st, logs)) ∧
    (writeTime + T < now →
      persistentCacheGet k now (persistentCacheSet k v writeTime T st) logs
        = (none, mapDelete k (persistentCacheSet k v writeTime T st), logs) ∧
      mapFind k (mapDelete k (persistentCacheSet k v writeTime T st)) = none) := by
  unfold persistentCacheGet persistentCacheGetCore persistentCacheSet
  rw [mapFind_mapSet_self]
  constructor
  · intro h
    have : ¬ ((⟨v, writeTime + T⟩ : StoredItem).expires < now) := by
      simpa using Nat.not_lt.mpr h
    simp [this]
  · intro h
    have : (⟨v, writeTime + T⟩ : StoredItem).expires < now := by simpa using h
    simp [this, mapFind_mapDelete_self]

/-- Claim C4 (witness): both branches of `persistent_ttl_expiry` at a
concrete input — written at time 10 with TTL 5, a read at time 15
returns the value, a read at time 16 misses and deletes the record. -/
theorem persistent_ttl_expiry_witness :
    ((15 : Nat) ≤ 10 + 5 ∧
      persistentCacheGet "k" 15 (persistentCacheSet "k" c4Def 10 5 []) []
        = (some c4Def, persistentCacheSet "k" c4Def 10 5 [], [])) ∧
    (10 + 5 < (16 : Nat) ∧
      (persistentCacheGet "k" 16 (persistentCacheSet "k" c4Def 10 5 []) []
        = (none, mapDelete "k" (persistentCacheSet "k" c4Def 10 5 []), []) ∧
      mapFind "k" (mapDelete "k" (persistentCacheSet "k" c4Def 10 5 [])) = none)) :=
  ⟨⟨by decide, (persistent_ttl_expiry "k" c4Def 10 5 15 [] []).1 (by decide)⟩,
   ⟨by decide, (persistent_ttl_expiry "k" c4Def 10 5 16 [] []).2 (by decide)⟩⟩

/-- Claim C5: when the backing storage read throws, `persistentCache.get`
returns absent (a miss, not a propagated error — the embedded function
returns an `Option` with no error channel, mirroring the `catch` that
swallows the exception), leaves the backing store untouched, and
records the failure in the error log under source
`persistentCache.get` (the new record sits at the head of the log). -/
theorem persistent_get_read_failure (k e : String) (now : Nat)
    (st : List (String × StoredItem)) (logs : List ErrRec) :
    persistentCacheGetCore k (Except.error e) now st logs
      = (none, st, logErrorFn "persistentCache.get" e logs) ∧
    (logErrorFn "persistentCache.get" e logs).head? = some ⟨"persistentCache.get", e⟩ := by
  exact ⟨rfl, logErrorFn_head _ _ _⟩

/-- Claim C9: with no Gemini credential configured, `rewriteTone`
returns `{success: false, error: "Gemini API key is not configured."}`,
never invokes the fetch primitive (third component `false`, and the
result is the same for every possible fetch outcome), and records the
configuration error to the diagnostics log under source
`api.rewriteTone`. -/
theorem rewriteTone_no_key (text tone : String) (fetch : GeminiFetch)
    (logs : List ErrRec) :
    rewriteTone text tone none fetch logs
      = ({ success := false, error := some "Gemini API key is not configured." },
         logErrorFn "api.rewriteTone" "Gemini API key is not configured." logs,
         false) ∧
    (logErrorFn "api.rewriteTone" "Gemini API key is not configured." logs).head?
      = some ⟨"api.rewriteTone", "Gemini API key is not configured."⟩ := by
  exact ⟨rfl, logErrorFn_head _ _ _⟩

/-! ## Deduplicating union lemmas (JS `Set` insertion-order fold) -/

theorem mem_addUnique (acc : List String) (x s : String) :
    s ∈ addUnique acc x ↔ s ∈ acc ∨ s = x := by
  unfold addUnique
  split
  · rename_i h
    constructor
    · exact fun hs => Or.inl hs
    · rintro (hs | rfl)
      · exact hs
      · exact h
  · simp

theorem nodup_addUnique (acc : List String) (x : String) (h : acc.Nodup) :
    (addUnique acc x).Nodup := by
  unfold addUnique
  split
  · exact h
  · rename_i hx
    simpa [List.nodup_append, hx] using h

theorem mem_foldl_addUnique (l acc : List String) (s : String) :
    s ∈ l.foldl addUnique acc ↔ s ∈ acc ∨ s ∈ l := by
  induction l generalizing acc with
  | nil => simp
  | cons x xs ih =>
    rw [List.foldl_cons, ih, mem_addUnique]
    constructor
    · rintro ((h | rfl) | h)
      · exact Or.inl h
      · exact Or.inr (List.mem_cons_self _ _)
      · exact Or.inr (List.mem_cons_of_mem _ h)
    · rintro (h | h)
      · exact Or.inl (Or.inl h)
      · rcases List.mem_cons.mp h with rfl | h
        · exact Or.inl (Or.inr rfl)
        · exact Or.inr h

theorem nodup_foldl_addUnique (l acc : List String) (h : acc.Nodup) :
    (l.foldl addUnique acc).Nodup := by
  induction l generalizing acc with
  | nil => simpa
  | cons x xs ih => exact ih _ (nodup_addUnique _ _ h)

theorem mem_dedupUnion (l : List String) (s : String) :
    s ∈ dedupUnion l ↔ s ∈ l := by
  unfold dedupUnion
  rw [mem_foldl_addUnique]
  simp

theorem nodup_dedupUnion (l : List String) : (dedupUnion l).Nodup :=
  nodup_foldl_addUnique l [] List.nodup_nil

/-- Claim C8: the sanitizer returns absent on an empty response and on
a first result with no usable first definition (absent or empty
definition string); when it returns a record, the record's `synonyms`
(resp. `antonyms`) list contains each string occurring in the synonym
(resp. antonym) lists of ANY meaning group of the first result, each
exactly once — a deduplicated union across all meaning groups. -/
theorem sanitize_dedup_union :
    (sanitizeDictionaryResponse [] = none) ∧
    (∀ fr rest, firstDefinition fr = none →
      sanitizeDictionaryResponse (fr :: rest) = none) ∧
    (∀ fr rest, firstDefinition fr = some "" →
      sanitizeDictionaryResponse (fr :: rest) = none) ∧
    (∀ fr rest r, sanitizeDictionaryResponse (fr :: rest) = some r →
      (r.synonyms.Nodup ∧
        (∀ s, s ∈ r.synonyms ↔ ∃ m ∈ fr.meanings, s ∈ m.synonyms) ∧
        (∀ s, (∃ m ∈ fr.meanings, s ∈ m.synonyms) → r.synonyms.count s = 1)) ∧
      (r.antonyms.Nodup ∧
        (∀ s, s ∈ r.antonyms ↔ ∃ m ∈ fr.meanings, s ∈ m.antonyms) ∧
        (∀ s, (∃ m ∈ fr.meanings, s ∈ m.antonyms) → r.antonyms.count s = 1))) := by
  refine ⟨rfl, ?_, ?_, ?_⟩
  · intro fr rest h
    simp [sanitizeDictionaryResponse, h]
  · intro fr rest h
    simp [sanitizeDictionaryResponse, h]
  · intro fr rest r h
    have hsyn : ∀ s, (s ∈ dedupUnion (fr.meanings.flatMap (fun m => m.synonyms)) ↔
        ∃ m ∈ fr.meanings, s ∈ m.synonyms) := by
      intro s
      rw [mem_dedupUnion, List.mem_flatMap]
    have hant : ∀ s, (s ∈ dedupUnion (fr.meanings.flatMap (fun m => m.antonyms)) ↔
        ∃ m ∈ fr.meanings, s ∈ m.antonyms) := by
      intro s
      rw [mem_dedupUnion, List.mem_flatMap]
    rcases hd : firstDefinition fr with _ | meaning
    · simp [sanitizeDictionaryResponse, hd] at h
    · by_cases hm : meaning = ""
      · rw [hm] at hd
        simp [sanitizeDictionaryResponse, hd] at h
      · simp only [sanitizeDictionaryResponse, hd, if_neg hm, Option.some.injEq] at h
        subst h
        refine ⟨⟨nodup_dedupUnion _, hsyn, ?_⟩, ⟨nodup_dedupUnion _, hant, ?_⟩⟩
        · intro s hs
          exact List.count_eq_one_of_mem (nodup_dedupUnion _) ((hsyn s).mpr hs)
        · intro s hs
          exact List.count_eq_one_of_mem (nodup_dedupUnion _) ((hant s).mpr hs)

/-- Claim C8 (witness): the spec's round-trip example — two meaning
groups containing `happy, glad` and `glad, happy` respectively yield
the synonyms `[happy, glad]` with no duplicates, and the membership
and count facts hold for that record. -/
theorem sanitize_dedup_union_witness :
    (sanitizeDictionaryResponse c8Raw = some c8Rec) ∧
    ((c8Rec.synonyms.Nodup ∧
        (∀ s, s ∈ c8Rec.synonyms ↔ ∃ m ∈ (c8Raw.headD ⟨"", none, [], []⟩).meanings, s ∈ m.synonyms) ∧
        (∀ s, (∃ m ∈ (c8Raw.headD ⟨"", none, [], []⟩).meanings, s ∈ m.synonyms) →
          c8Rec.synonyms.count s = 1)) ∧
      (c8Rec.antonyms.Nodup ∧
        (∀ s, s ∈ c8Rec.antonyms ↔ ∃ m ∈ (c8Raw.headD ⟨"", none, [], []⟩).meanings, s ∈ m.antonyms) ∧
        (∀ s, (∃ m ∈ (c8Raw.headD ⟨"", none, [], []⟩).meanings, s ∈ m.antonyms) →
          c8Rec.antonyms.count s = 1))) :=
  ⟨by decide,
   sanitize_dedup_union.2.2.2 (c8Raw.headD ⟨"", none, [], []⟩) [] c8Rec (by decide)⟩

/-- Claim C1: `lookupMeaning` follows the tiered algorithm in order
with short-circuiting.  (1) On a session-cache hit it returns
`{success, data, source := "session"}`, leaves the persistent store and
the error log untouched and enqueues no network action (the session
cache itself is updated only by `get`'s recency move).  (2) On a
session miss and persistent hit it hydrates the session cache with the
value via `set`, returns `source := "persistent"` and enqueues no
network action.  (3) Only when both tiers miss is a network action
enqueued (`enqueuedFetch = true`); when the fetch succeeds and the
response normalizes to a usable record, the record is written to both
the session cache and the persistent store and the result is tagged
`source := "api"`. -/
theorem lookupMeaning_tiered (text : String) (now ttl : Nat)
    (fetch : Except String (List DictResult)) (w : SWState) :
    (∀ d s', lruGet (lookupCacheKey text) w.session = (some d, s') →
      lookupMeaning text now ttl fetch w =
        ⟨{ success := true, data := some d, source := some "session" },
         { w with session := s' }, false⟩) ∧
    (∀ d st' lg',
      (lruGet (lookupCacheKey text) w.session).1 = none →
      persistentCacheGet (lookupCacheKey text) now w.storage w.errorLogs
        = (some d, st', lg') →
      lookupMeaning text now ttl fetch w =
        ⟨{ success := true, data := some d, source := some "persistent" },
         { session := lruSet (lookupCacheKey text) d w.session
           storage := st', errorLogs := lg' },
         false⟩) ∧
    (∀ raw nd st' lg',
      (lruGet (lookupCacheKey text) w.session).1 = none →
      persistentCacheGet (lookupCacheKey text) now w.storage w.errorLogs
        = (none, st', lg') →
      fetch = Except.ok raw →
      sanitizeDictionaryResponse raw = some nd →
      lookupMeaning text now ttl fetch w =
        ⟨{ success := true, rtype := some "definition", data := some nd,
           source := some "api" },
         { session := lruSet (lookupCacheKey text) nd w.session
           storage := persistentCacheSet (lookupCacheKey text) nd now ttl st'
           errorLogs := lg' },
         true⟩) := by
  refine ⟨?_, ?_, ?_⟩
  · intro d s' h1
    simp [lookupMeaning, h1]
  · intro d st' lg' h1 h2
    rcases hget : lruGet (lookupCacheKey text) w.session with ⟨o, s2⟩
    rw [hget] at h1
    simp only at h1
    subst h1
    simp [lookupMeaning, hget, h2]
  · intro raw nd st' lg' h1 h2 hf hs
    rcases hget : lruGet (lookupCacheKey text) w.session with ⟨o, s2⟩
    rw [hget] at h1
    simp only at h1
    subst h1
    subst hf
    simp [lookupMeaning, hget, h2, hs]

/-- Claim C1 (witness): the three tiers at concrete inputs.  With the
key `meaning_hello` in the session cache the lookup is served from the
session tier; with a cold session and an unexpired persistent entry it
is served from the persistent tier and hydrates the session cache;
with both tiers cold it enqueues a fetch whose successful response is
written to both tiers and tagged `source = "api"`. -/
theorem lookupMeaning_tiered_witness :
    (lruGet (lookupCacheKey "Hello") c1SessionWorld.session
        = (some c1Def, ⟨50, [("meaning_hello", c1Def)]⟩) ∧
      lookupMeaning "Hello" 0 604800000 (Except.error "network down") c1SessionWorld =
        ⟨{ success := true, data := some c1Def, source := some "session" },
         { c1SessionWorld with session := ⟨50, [("meaning_hello", c1Def)]⟩ }, false⟩) ∧
    ((lruGet (lookupCacheKey "Hello") c1PersistentWorld.session).1 = none ∧
      persistentCacheGet (lookupCacheKey "Hello") 0 c1PersistentWorld.storage
          c1PersistentWorld.errorLogs
        = (some c1Def, c1PersistentWorld.storage, []) ∧
      lookupMeaning "Hello" 0 604800000 (Except.error "network down") c1PersistentWorld =
        ⟨{ success := true, data := some c1Def, source := some "persistent" },
         { session := lruSet (lookupCacheKey "Hello") c1Def c1PersistentWorld.session
           storage := c1PersistentWorld.storage, errorLogs := [] },
         false⟩) ∧
    ((lruGet (lookupCacheKey "hello") c1ColdWorld.session).1 = none ∧
      persistentCacheGet (lookupCacheKey "hello") 0 c1ColdWorld.storage
          c1ColdWorld.errorLogs = (none, [], []) ∧
      sanitizeDictionaryResponse c1Raw = some c1Def ∧
      lookupMeaning "hello" 0 604800000 (Except.ok c1Raw) c1ColdWorld =
        ⟨{ success := true, rtype := some "definition", data := some c1Def,
           source := some "api" },
         { session := lruSet (lookupCacheKey "hello") c1Def c1ColdWorld.session
           storage := persistentCacheSet (lookupCacheKey "hello") c1Def 0 604800000 []
           errorLogs := [] },
         true⟩) :=
  ⟨⟨by decide,
    (lookupMeaning_tiered "Hello" 0 604800000 (Except.error "network down")
        c1SessionWorld).1 c1Def _ (by decide)⟩,
   ⟨by decide, by decide,
    (lookupMeaning_tiered "Hello" 0 604800000 (Except.error "network down")
        c1PersistentWorld).2.1 c1Def c1PersistentWorld.storage [] (by decide) (by decide)⟩,
   ⟨by decide, by decide, by decide,
    (lookupMeaning_tiered "hello" 0 604800000 (Except.ok c1Raw)
        c1ColdWorld).2.2 c1Raw c1Def [] [] (by decide) (by decide) rfl (by decide)⟩⟩

/-! ## Rate limiter lemmas -/

theorem mem_of_getLast?_eq {α : Type} {l : List α} {a : α} (h : l.getLast? = some a) :
    a ∈ l := by
  have hx := List.mem_getLast?_eq_getLast (l := l) (x := a) (by simp [h])
  rcases hx with ⟨hl, rfl⟩
  exact List.getLast_mem hl

theorem pacerAdd_of_processing (interval t a : Nat) (s : PacerState)
    (h : s.isProcessing = true) :
    pacerAdd interval t a s = { s with queue := s.queue ++ [a] } := by
  unfold pacerAdd
  simp [h]

theorem pacerAdd_of_idle (interval t a : Nat) (s : PacerState)
    (h : s.isProcessing = false) :
    pacerAdd interval t a s =
      { s with queue := s.queue ++ [a], isProcessing := true,
               nextFire := some (t + interval) } := by
  unfold pacerAdd
  simp [h]

theorem foldAdds_of_processing (interval t : Nat) (A : List Nat) (s : PacerState)
    (h : s.isProcessing = true) :
    A.foldl (fun st a => pacerAdd interval t a st) s = { s with queue := s.queue ++ A } := by
  induction A generalizing s with
  | nil => simp
  | cons a A' ih =>
    rw [List.foldl_cons, pacerAdd_of_processing interval t a s h,
      ih { s with queue := s.queue ++ [a] } h]
    simp

theorem foldAdds_of_idle (interval t : Nat) (a : Nat) (A' : List Nat) (s : PacerState)
    (h : s.isProcessing = false) :
    (a :: A').foldl (fun st a => pacerAdd interval t a st) s =
      { s with queue := s.queue ++ a :: A', isProcessing := true,
               nextFire := some (t + interval) } := by
  rw [List.foldl_cons, pacerAdd_of_idle interval t a s h,
    foldAdds_of_processing interval t A' _ rfl]
  simp

/-- `enqSeq` grows by the adds delivered at time `n`. -/
theorem enqSeq_succ (sched : List (Nat × Nat)) (n : Nat) :
    enqSeq sched (n + 1) = enqSeq sched n ++ addsAt sched n := by
  unfold enqSeq
  rw [List.range_succ]
  simp

theorem pacerRun_succ (interval : Nat) (sched : List (Nat × Nat)) (n : Nat) :
    pacerRun interval sched (n + 1) = pacerStep interval sched n (pacerRun interval sched n) := by
  unfold pacerRun
  rw [List.range_succ, List.foldl_append]
  rfl

/-- Invariant of the rate-limiter simulation after the first `n`
milliseconds have been processed: consecutive starts are at least one
interval apart, start times are strictly increasing and lie in the
past, the `isProcessing` flag mirrors the existence of the timer, an
absent timer means an empty queue, a pending timer fire lies at least
one interval after every start so far, and the ids started so far
followed by the queue are exactly the adds delivered so far in
enqueue order (strict FIFO). -/
def PacerInv (interval : Nat) (sched : List (Nat × Nat)) (n : Nat) (s : PacerState) : Prop :=
  List.Chain' (fun p q : Nat × Nat => p.2 + interval ≤ q.2) s.started ∧
  List.Pairwise (fun p q : Nat × Nat => p.2 < q.2) s.started ∧
  (∀ p ∈ s.started, p.2 < n) ∧
  s.isProcessing = s.nextFire.isSome ∧
  (s.nextFire = none → s.queue = []) ∧
  (∀ tf, s.nextFire = some tf → ∀ p ∈ s.started, p.2 + interval ≤ tf) ∧
  s.started.map Prod.fst ++ s.queue = enqSeq sched n

theorem pacerInv_zero (interval : Nat) (sched : List (Nat × Nat)) :
    PacerInv interval sched 0 pacerInit := by
  refine ⟨List.chain'_nil, List.Pairwise.nil, ?_, rfl, ?_, ?_, ?_⟩ <;>
    simp [pacerInit, enqSeq]

/-- The start log extended by one start at time `n` keeps all invariant
shape components, provided every pending-fire bound and past bound
holds.  Shared by the two tick cases of the step proof. -/
theorem started_extend (interval n : Nat) (started : List (Nat × Nat)) (a : Nat)
    (hchain : List.Chain' (fun p q : Nat × Nat => p.2 + interval ≤ q.2) started)
    (hpw : List.Pairwise (fun p q : Nat × Nat => p.2 < q.2) started)
    (hlt : ∀ p ∈ started, p.2 < n)
    (hgap : ∀ x ∈ started, x.2 + interval ≤ n) :
    List.Chain' (fun p q : Nat × Nat => p.2 + interval ≤ q.2) (started ++ [(a, n)]) ∧
    List.Pairwise (fun p q : Nat × Nat => p.2 < q.2) (started ++ [(a, n)]) ∧
    (∀ p ∈ started ++ [(a, n)], p.2 < n + 1) ∧
    (∀ p ∈ started ++ [(a, n)], p.2 + interval ≤ n + interval) := by
  refine ⟨?_, ?_, ?_, ?_⟩
  · rw [List.chain'_append]
    refine ⟨hchain, List.chain'_singleton _, ?_⟩
    intro x hx y hy
    simp only [List.head?_cons, Option.mem_def, Option.some.injEq] at hy
    subst hy
    exact hgap x (mem_of_getLast?_eq hx)
  · rw [List.pairwise_append]
    refine ⟨hpw, List.pairwise_singleton _ _, ?_⟩
    intro p hp q hq
    simp only [List.mem_singleton] at hq
    subst hq
    exact hlt p hp
  · intro p hp
    rcases List.mem_append.mp hp with hp | hp
    · exact Nat.lt_succ_of_lt (hlt p hp)
    · simp only [List.mem_singleton] at hp
      subst hp
      exact Nat.lt_succ_self n
  · intro p hp
    rcases List.mem_append.mp hp with hp | hp
    · have := hlt p hp
      omega
    · simp only [List.mem_singleton] at hp
      subst hp
      omega

theorem pacerInv_step (interval : Nat) (sched : List (Nat × Nat)) (n : Nat)
    (s : PacerState) (h : PacerInv interval sched n s) :
    PacerInv interval sched (n + 1) (pacerStep interval sched n s) := by
  obtain ⟨hchain, hpw, hlt, hproc, hqe, htf, hled⟩ := h
  unfold pacerStep
  rcases hP : s.isProcessing with _ | _
  · -- idle: no timer, empty queue
    have hnf : s.nextFire = none := by
      rcases hnf : s.nextFire with _ | tf
      · rfl
      · rw [hP, hnf] at hproc
        simp at hproc
    have hq : s.queue = [] := hqe hnf
    rcases hA : addsAt sched n with _ | ⟨a, A'⟩
    · -- no adds this millisecond: state unchanged
      rw [List.foldl_nil]
      unfold pacerFire
      rw [hnf]
      exact ⟨hchain, hpw, fun p hp => Nat.lt_succ_of_lt (hlt p hp), hproc, hqe, htf,
        by rw [enqSeq_succ, hA, List.append_nil, hled]⟩
    · -- first add starts the timer one interval from now
      rw [foldAdds_of_idle interval n a A' s hP, hq]
      simp only [List.nil_append]
      unfold pacerFire
      simp only
      by_cases hfire : n + interval ≤ n
      · -- interval = 0: the timer is already due within this millisecond
        rw [if_pos hfire]
        unfold pacerTick
        simp only
        obtain ⟨hc, hp2, hl2, hg2⟩ := started_extend interval n s.started a hchain hpw hlt
          (fun x hx => by have := hlt x hx; omega)
        refine ⟨hc, hp2, hl2, rfl, by simp, ?_, ?_⟩
        · intro tf htf' p hp
          simp only [Option.some.injEq] at htf'
          subst htf'
          exact hg2 p hp
        · rw [enqSeq_succ, hA, ← hled, hq]
          simp
      · rw [if_neg hfire]
        refine ⟨hchain, hpw, fun p hp => Nat.lt_succ_of_lt (hlt p hp), rfl, by simp, ?_, ?_⟩
        · intro tf htf' p hp
          simp only [Option.some.injEq] at htf'
          subst htf'
          have := hlt p hp
          omega
        · rw [enqSeq_succ, hA, ← hled, hq]
          simp
  · -- processing: adds only append to the queue
    rw [foldAdds_of_processing interval n (addsAt sched n) s hP]
    rcases hnf : s.nextFire with _ | tf0
    · rw [hP, hnf] at hproc
      simp at hproc
    · unfold pacerFire
      simp only
      by_cases hfire : tf0 ≤ n
      · rw [if_pos hfire]
        unfold pacerTick
        rcases hq1 : s.queue ++ addsAt sched n with _ | ⟨a, rest⟩
        · -- queue empty at the fire: timer stops
          simp only
          refine ⟨hchain, hpw, fun p hp => Nat.lt_succ_of_lt (hlt p hp), rfl, fun _ => rfl,
            by simp, ?_⟩
          rw [enqSeq_succ, ← hled, List.append_assoc, hq1]
        · -- start the next queued action now
          simp only
          obtain ⟨hc, hp2, hl2, hg2⟩ := started_extend interval n s.started a hchain hpw hlt
            (fun x hx => Nat.le_trans (htf tf0 hnf x hx) hfire)
          refine ⟨hc, hp2, hl2, by simp [hP], by simp, ?_, ?_⟩
          · intro tf htf' p hp
            simp only [Option.some.injEq] at htf'
            subst htf'
            exact hg2 p hp
          · rw [enqSeq_succ, ← hled, List.append_assoc, hq1, List.map_append]
            simp
      · rw [if_neg hfire]
        refine ⟨hchain, hpw, fun p hp => Nat.lt_succ_of_lt (hlt p hp), by simp [hP], by simp, ?_, ?_⟩
        · intro tf htf' p hp
          simp only [Option.some.injEq] at htf'
          subst htf'
          exact htf tf0 hnf p hp
        · rw [enqSeq_succ, ← hled, List.append_assoc]

theorem pacerRun_inv (interval : Nat) (sched : List (Nat × Nat)) (T : Nat) :
    PacerInv interval sched T (pacerRun interval sched T) := by
  induction T with
  | zero => exact pacerInv_zero interval sched
  | succ n ih =>
    rw [pacerRun_succ]
    exact pacerInv_step interval sched n _ ih

/-- Claim C6: the rate limiter starts actions in exactly their enqueue
order — the ids started so far followed by the ids still queued are
precisely the enqueue sequence, so the start log is always a prefix of
the enqueue order — and the start times of consecutive executions are
at least `1000 / requestsPerSecond` milliseconds apart. -/
theorem pacer_fifo_and_paced (requestsPerSecond : Nat) (sched : List (Nat × Nat)) (T : Nat) :
    (pacerRun (rlInterval requestsPerSecond) sched T).started.map Prod.fst
        ++ (pacerRun (rlInterval requestsPerSecond) sched T).queue = enqSeq sched T ∧
    List.Chain' (fun p q : Nat × Nat => p.2 + rlInterval requestsPerSecond ≤ q.2)
      (pacerRun (rlInterval requestsPerSecond) sched T).started := by
  obtain ⟨hchain, _, _, _, _, _, hled⟩ := pacerRun_inv (rlInterval requestsPerSecond) sched T
  exact ⟨hled, hchain⟩

theorem filter_time_length_le_one (l : List (Nat × Nat)) (t : Nat)
    (h : List.Pairwise (fun p q : Nat × Nat => p.2 < q.2) l) :
    (l.filter (fun p => p.2 = t)).length ≤ 1 := by
  induction l with
  | nil => simp
  | cons p rest ih =>
    cases h with
    | cons hp htail =>
      by_cases hp2 : p.2 = t
      · have hnil : rest.filter (fun q : Nat × Nat => decide (q.2 = t)) = [] := by
          rw [List.filter_eq_nil_iff]
          intro q hq
          have h1 := hp q hq
          simp only [decide_eq_true_eq]
          omega
        simp [List.filter_cons, hp2, hnil]
      · simp only [List.filter_cons, decide_eq_true_eq, hp2, if_false]
        exact ih htail

/-- Claim C7 (amended): at any instant at most one action is STARTED
(starts are strictly serialized in time, one per timer tick), but the
rate limiter does not wait for the started action to complete — the
timer callback invokes `request()` without awaiting it — so an action
whose body outlives the pacing interval overlaps the execution of the
next one (see the counterexample for an explicit overlap). -/
theorem pacer_one_start_per_instant (interval : Nat) (sched : List (Nat × Nat)) (T t : Nat) :
    ((pacerRun interval sched T).started.filter (fun p => p.2 = t)).length ≤ 1 := by
  obtain ⟨_, hpw, _, _, _, _, _⟩ := pacerRun_inv interval sched T
  exact filter_time_length_le_one _ t hpw

set_option maxRecDepth 100000 in
/-- Claim C7 (counterexample): with two actions enqueued at time 0 at
the default rate (5/sec, interval 200 ms), the first starts at 200 ms
and the second at 400 ms; if the first action's body takes 1000 ms it
completes at `completionTime c7Dur (1, 200) = 1200`, yet the second
action starts at 400 < 1200 — the rate limiter began the next queued
action before the previously dispatched one ran to completion,
contradicting the claim that it never does so. -/
theorem pacer_overlap_counterexample :
    (pacerRun (rlInterval 5) [(0, 1), (0, 2)] 401).started = [(1, 200), (2, 400)] ∧
    400 < completionTime c7Dur (1, 200) := by
  constructor
  · decide
  · decide

/-- Lower bound invariant for the first start: while the schedule only
contains adds at or after `t0`, any pending timer fire and any recorded
start lies at or after `t0 + interval`. -/
def PacerLB (interval t0 : Nat) (s : PacerState) : Prop :=
  (∀ tf, s.nextFire = some tf → t0 + interval ≤ tf) ∧
  (∀ p ∈ s.started, t0 + interval ≤ p.2)

theorem addsAt_time (sched : List (Nat × Nat)) (t : Nat) (h : addsAt sched t ≠ []) :
    ∃ q ∈ sched, q.1 = t := by
  unfold addsAt at h
  have h2 : sched.filter (fun p => p.1 = t) ≠ [] := by
    intro hn
    rw [hn] at h
    simp at h
  obtain ⟨q, hq⟩ := List.exists_mem_of_ne_nil _ h2
  have := List.mem_filter.mp hq
  exact ⟨q, this.1, by simpa using this.2⟩

theorem pacerFire_LB (interval t0 n : Nat) (s : PacerState) (h : PacerLB interval t0 s) :
    PacerLB interval t0 (pacerFire interval n s) := by
  obtain ⟨hf, hs⟩ := h
  unfold pacerFire
  rcases hnf : s.nextFire with _ | tf
  · exact ⟨hf, hs⟩
  · have h1 : t0 + interval ≤ tf := hf tf hnf
    simp only
    by_cases hfire : tf ≤ n
    · rw [if_pos hfire]
      unfold pacerTick
      rcases hq : s.queue with _ | ⟨a, rest⟩
      · refine ⟨?_, hs⟩
        intro tf' htf'
        simp at htf'
      · refine ⟨?_, ?_⟩
        · intro tf' htf'
          simp only [Option.some.injEq] at htf'
          omega
        · intro p hp
          rcases List.mem_append.mp hp with hp | hp
          · exact hs p hp
          · simp only [List.mem_singleton] at hp
            subst hp
            simp only
            omega
    · rw [if_neg hfire]
      exact ⟨hf, hs⟩

theorem pacerLB_step (interval t0 : Nat) (sched : List (Nat × Nat))
    (hsched : ∀ q ∈ sched, t0 ≤ q.1) (n : Nat) (s : PacerState)
    (h : PacerLB interval t0 s) :
    PacerLB interval t0 (pacerStep interval sched n s) := by
  obtain ⟨hf, hs⟩ := h
  unfold pacerStep
  apply pacerFire_LB
  rcases hP : s.isProcessing with _ | _
  · rcases hA : addsAt sched n with _ | ⟨a, A'⟩
    · rw [List.foldl_nil]
      exact ⟨hf, hs⟩
    · rw [foldAdds_of_idle interval n a A' s hP]
      obtain ⟨q, hq, hqn⟩ := addsAt_time sched n (by rw [hA]; simp)
      have hn : t0 ≤ n := hqn ▸ hsched q hq
      refine ⟨?_, ?_⟩
      · intro tf htf'
        simp only [Option.some.injEq] at htf'
        omega
      · intro p hp
        exact hs p hp
  · rw [foldAdds_of_processing interval n (addsAt sched n) s hP]
    exact ⟨fun tf h' => hf tf h', hs⟩

theorem pacerRun_LB (interval t0 : Nat) (sched : List (Nat × Nat))
    (hsched : ∀ q ∈ sched, t0 ≤ q.1) (T : Nat) :
    PacerLB interval t0 (pacerRun interval sched T) := by
  induction T with
  | zero =>
    refine ⟨?_, ?_⟩
    · intro tf h'
      simp [pacerRun, pacerInit] at h'
    · intro p hp
      simp [pacerRun, pacerInit] at hp
  | succ n ih =>
    rw [pacerRun_succ]
    exact pacerLB_step interval t0 sched hsched n _ ih

/-- Claim C10: the rate limiter never runs an enqueued action
synchronously at enqueue time: every recorded start happens at least
one full pacing interval (`1000 / requestsPerSecond` ms) after the
earliest enqueue, because `setInterval`'s first fire is one interval
after `processQueue` starts the timer.  In particular, a single lookup
that misses both caches waits at least one interval (200 ms at the
default 5/sec) before its network fetch begins. -/
theorem pacer_no_synchronous_start (requestsPerSecond : Nat) (sched : List (Nat × Nat))
    (T t0 : Nat) (h : ∀ q ∈ sched, t0 ≤ q.1) :
    ∀ p ∈ (pacerRun (rlInterval requestsPerSecond) sched T).started,
      t0 + rlInterval requestsPerSecond ≤ p.2 :=
  (pacerRun_LB (rlInterval requestsPerSecond) t0 sched h T).2

/-- Claim C10 (witness): a single action enqueued at time 0 at the
default rate of 5 requests per second starts no earlier than 200 ms;
in the concrete run it starts exactly at 200 ms. -/
theorem pacer_no_synchronous_start_witness :
    (∀ q ∈ [((0 : Nat), (7 : Nat))], 0 ≤ q.1) ∧
    (∀ p ∈ (pacerRun (rlInterval 5) [(0, 7)] 300).started, 0 + rlInterval 5 ≤ p.2) :=
  ⟨by decide, pacer_no_synchronous_start 5 [(0, 7)] 300 0 (by decide)⟩

/-! ## LRU recency-eviction lemmas -/

theorem mapFind_eq_some_mem {α : Type} {k : String} {v : α} {l : List (String × α)}
    (h : mapFind k l = some v) : (k, v) ∈ l := by
  induction l with
  | nil => simp [mapFind] at h
  | cons p rest ih =>
    by_cases hp : p.1 = k
    · rw [mapFind, if_pos hp] at h
      simp only [Option.some.injEq] at h
      subst h
      have : p = (k, p.2) := by
        rw [← hp]
      rw [← this]
      exact List.mem_cons_self _ _
    · rw [mapFind, if_neg hp] at h
      exact List.mem_cons_of_mem _ (ih h)

theorem mem_mapDelete {α : Type} {k : String} {p : String × α} {l : List (String × α)}
    (h : p ∈ mapDelete k l) : p ∈ l ∧ p.1 ≠ k := by
  have := List.mem_filter.mp h
  exact ⟨this.1, by simpa using this.2⟩

theorem mapDelete_sublist {α : Type} (k : String) (l : List (String × α)) :
    (mapDelete k l).Sublist l :=
  List.filter_sublist l

theorem setKeys_cons_get {α : Type} (k : String) (rest : List (CacheOp α)) :
    setKeys (CacheOp.getOp k :: rest) = setKeys rest := rfl

theorem setKeys_cons_set {α : Type} (k : String) (v : α) (rest : List (CacheOp α)) :
    setKeys (CacheOp.setOp k v :: rest) = k :: setKeys rest := rfl

theorem lruStep_get_miss {α : Type} (s : LRURun α) (k : String)
    (h : mapFind k s.cache.entries = none) :
    lruStep s (CacheOp.getOp k) = { s with time := s.time + 1 } := by
  simp [lruStep, lruGet, h]

theorem lruStep_get_hit {α : Type} (s : LRURun α) (k : String) (v : α)
    (h : mapFind k s.cache.entries = some v) :
    lruStep s (CacheOp.getOp k) =
      { cache := { s.cache with entries := mapSet k v (mapDelete k s.cache.entries) }
        access := fun k' => if k' = k then s.time else s.access k'
        time := s.time + 1 } := by
  simp [lruStep, lruGet, h]

/-- The recency invariant of an instrumented run: cache keys are
distinct, the entries are ordered front-to-back by strictly increasing
last-access time (the front of the JS `Map` is the least recently
accessed), and all access times are in the past. -/
def LruInv {α : Type} (s : LRURun α) : Prop :=
  ((s.cache.entries.map Prod.fst).Nodup) ∧
  List.Pairwise (fun p q : String × α => s.access p.1 < s.access q.1) s.cache.entries ∧
  (∀ p ∈ s.cache.entries, s.access p.1 < s.time)

theorem lruRun_fold_inv {α : Type} (ops : List (CacheOp α)) (s : LRURun α)
    (hInv : LruInv s)
    (hNodup : (setKeys ops).Nodup)
    (hFresh : ∀ k ∈ setKeys ops, ¬ k ∈ cacheKeys s.cache) :
    LruInv (ops.foldl lruStep s) ∧
    (∀ k, k ∈ cacheKeys (ops.foldl lruStep s).cache →
      k ∈ cacheKeys s.cache ∨ k ∈ setKeys ops) := by
  induction ops generalizing s with
  | nil =>
    exact ⟨hInv, fun k hk => Or.inl hk⟩
  | cons op rest ih =>
    obtain ⟨hInv1, hInv2, hInv3⟩ := hInv
    rcases op with ⟨k, v⟩ | k
    · -- setOp k v: k is fresh for the current cache
      rw [setKeys_cons_set] at hNodup hFresh
      have hkfresh : ¬ k ∈ cacheKeys s.cache := hFresh k (List.mem_cons_self _ _)
      have hkrest : ¬ k ∈ setKeys rest := (List.nodup_cons.mp hNodup).1
      have hrestnodup : (setKeys rest).Nodup := (List.nodup_cons.mp hNodup).2
      rw [List.foldl_cons]
      -- shape of the step
      have hstep : lruStep s (CacheOp.setOp k v) =
          { cache := lruSet k v s.cache
            access := fun k' => if k' = k then s.time else s.access k'
            time := s.time + 1 } := rfl
      -- the base list the new pair is appended to is a sublist of the entries
      have hset : (lruSet k v s.cache).entries
          = mapSet k v (if s.cache.maxSize ≤ s.cache.entries.length
              then s.cache.entries.tail else s.cache.entries) := by
        unfold lruSet
        simp only
        by_cases hcap : s.cache.maxSize ≤ s.cache.entries.length
        · rw [if_pos hcap, if_pos hcap]
          congr 1
          cases s.cache.entries <;> rfl
        · rw [if_neg hcap, if_neg hcap]
      obtain ⟨base, hbaseeq, hbs⟩ :
          ∃ base, (lruSet k v s.cache).entries = mapSet k v base ∧
            base.Sublist s.cache.entries := by
        refine ⟨_, hset, ?_⟩
        by_cases hcap : s.cache.maxSize ≤ s.cache.entries.length
        · rw [if_pos hcap]
          exact List.tail_sublist _
        · rw [if_neg hcap]
      have hbfresh : ∀ p ∈ base, p.1 ≠ k := by
        intro p hp hpk
        exact hkfresh (by
          unfold cacheKeys
          exact List.mem_map.mpr ⟨p, hbs.mem hp, hpk⟩)
      have hentries : (lruSet k v s.cache).entries = base ++ [(k, v)] := by
        rw [hbaseeq]
        exact mapSet_eq_append k v base hbfresh
      -- invariant for the stepped state
      have hInv' : LruInv (lruStep s (CacheOp.setOp k v)) := by
        rw [hstep]
        refine ⟨?_, ?_, ?_⟩
        · rw [hentries, List.map_append]
          rw [List.nodup_append]
          refine ⟨(hbs.map Prod.fst).nodup hInv1, List.nodup_singleton _, ?_⟩
          intro a ha
          simp only [List.map_cons, List.map_nil, List.mem_singleton]
          intro hak
          subst hak
          exact absurd ha (by
            intro hmem
            rcases List.mem_map.mp hmem with ⟨p, hp, hpk⟩
            exact hbfresh p hp hpk)
        · rw [hentries, List.pairwise_append]
          refine ⟨?_, List.pairwise_singleton _ _, ?_⟩
          · have hpw := hInv2.sublist hbs
            refine hpw.imp_of_mem ?_
            intro a b ha hb hab
            have hak := hbfresh a ha
            have hbk := hbfresh b hb
            simpa [hak, hbk] using hab
          · intro a ha b hb
            simp only [List.mem_singleton] at hb
            subst hb
            have hak := hbfresh a ha
            simp only [hak, if_neg, if_pos]
            have := hInv3 a (hbs.mem ha)
            simpa [hak] using this
        · intro p hp
          rw [hentries] at hp
          rcases List.mem_append.mp hp with hp | hp
          · have := hInv3 p (hbs.mem hp)
            simp only
            split <;> omega
          · simp only [List.mem_singleton] at hp
            subst hp
            simp
      -- keys of the stepped cache
      have hkeys : ∀ k', k' ∈ cacheKeys (lruStep s (CacheOp.setOp k v)).cache →
          k' ∈ cacheKeys s.cache ∨ k' = k := by
        intro k' hk'
        rw [hstep] at hk'
        unfold cacheKeys at hk'
        rw [hentries, List.map_append] at hk'
        rcases List.mem_append.mp hk' with hk' | hk'
        · rcases List.mem_map.mp hk' with ⟨p, hp, hpk⟩
          exact Or.inl (List.mem_map.mpr ⟨p, hbs.mem hp, hpk⟩)
        · simp only [List.map_cons, List.map_nil, List.mem_singleton] at hk'
          exact Or.inr hk'
      have hFresh' : ∀ k' ∈ setKeys rest,
          ¬ k' ∈ cacheKeys (lruStep s (CacheOp.setOp k v)).cache := by
        intro k' hk' hmem
        rcases hkeys k' hmem with h' | h'
        · exact hFresh k' (List.mem_cons_of_mem _ hk') h'
        · subst h'
          exact hkrest hk'
      obtain ⟨hI, hK⟩ := ih (lruStep s (CacheOp.setOp k v)) hInv' hrestnodup hFresh'
      refine ⟨hI, ?_⟩
      intro k' hk'
      rcases hK k' hk' with h' | h'
      · rcases hkeys k' h' with h'' | h''
        · exact Or.inl h''
        · exact Or.inr (h'' ▸ List.mem_cons_self _ _)
      · exact Or.inr (List.mem_cons_of_mem _ h')
    · -- getOp k
      rw [setKeys_cons_get] at hNodup hFresh
      rw [List.foldl_cons]
      rcases hfind : mapFind k s.cache.entries with _ | v
      · -- miss: only the clock advances
        rw [lruStep_get_miss s k hfind]
        exact ih _ ⟨hInv1, hInv2, fun p hp => Nat.lt_succ_of_lt (hInv3 p hp)⟩ hNodup hFresh
      · -- hit: the entry moves to the most-recently-used end
        rw [lruStep_get_hit s k v hfind]
        have hdelfresh : ∀ p ∈ mapDelete k s.cache.entries, p.1 ≠ k :=
          fun p hp => (mem_mapDelete hp).2
        have hentries : mapSet k v (mapDelete k s.cache.entries)
            = mapDelete k s.cache.entries ++ [(k, v)] :=
          mapSet_eq_append k v _ hdelfresh
        have hdelsub := mapDelete_sublist k s.cache.entries
        have hInv' : LruInv
            { cache := { s.cache with entries := mapSet k v (mapDelete k s.cache.entries) }
              access := fun k' => if k' = k then s.time else s.access k'
              time := s.time + 1 } := by
          refine ⟨?_, ?_, ?_⟩
          · simp only
            rw [hentries, List.map_append, List.nodup_append]
            refine ⟨(hdelsub.map Prod.fst).nodup hInv1, List.nodup_singleton _, ?_⟩
            intro a ha
            simp only [List.map_cons, List.map_nil, List.mem_singleton]
            intro hak
            subst hak
            rcases List.mem_map.mp ha with ⟨p, hp, hpk⟩
            exact hdelfresh p hp hpk
          · simp only
            rw [hentries, List.pairwise_append]
            refine ⟨?_, List.pairwise_singleton _ _, ?_⟩
            · have hpw := hInv2.sublist hdelsub
              refine hpw.imp_of_mem ?_
              intro a b ha hb hab
              have hak := hdelfresh a ha
              have hbk := hdelfresh b hb
              simpa [hak, hbk] using hab
            · intro a ha b hb
              simp only [List.mem_singleton] at hb
              subst hb
              have hak := hdelfresh a ha
              have := hInv3 a (hdelsub.mem ha)
              simpa [hak] using this
          · intro p hp
            simp only at hp ⊢
            rw [hentries] at hp
            rcases List.mem_append.mp hp with hp | hp
            · have := hInv3 p (hdelsub.mem hp)
              split <;> omega
            · simp only [List.mem_singleton] at hp
              subst hp
              simp
        have hkeys : ∀ k', k' ∈ cacheKeys
            { cache := { s.cache with entries := mapSet k v (mapDelete k s.cache.entries) }
              access := fun k' => if k' = k then s.time else s.access k'
              time := s.time + 1 : LRURun α }.cache →
            k' ∈ cacheKeys s.cache := by
          intro k' hk'
          unfold cacheKeys at hk'
          simp only at hk'
          rw [hentries, List.map_append] at hk'
          rcases List.mem_append.mp hk' with hk' | hk'
          · rcases List.mem_map.mp hk' with ⟨p, hp, hpk⟩
            exact List.mem_map.mpr ⟨p, hdelsub.mem hp, hpk⟩
          · simp only [List.map_cons, List.map_nil, List.mem_singleton] at hk'
            rw [hk']
            exact List.mem_map.mpr ⟨(k, v), mapFind_eq_some_mem hfind, rfl⟩
        have hFresh' : ∀ k' ∈ setKeys rest, ¬ k' ∈ cacheKeys
            { cache := { s.cache with entries := mapSet k v (mapDelete k s.cache.entries) }
              access := fun k' => if k' = k then s.time else s.access k'
              time := s.time + 1 : LRURun α }.cache := by
          intro k' hk' hmem
          exact hFresh k' hk' (hkeys k' hmem)
        obtain ⟨hI, hK⟩ := ih _ hInv' hNodup hFresh'
        refine ⟨hI, ?_⟩
        intro k' hk'
        rcases hK k' hk' with h' | h'
        · exact Or.inl (hkeys k' h')
        · exact Or.inr h'

theorem lruRun_maxSize {α : Type} (N : Nat) (ops : List (CacheOp α)) :
    (lruRun N ops).cache.maxSize = N := by
  suffices h : ∀ (s : LRURun α), (ops.foldl lruStep s).cache.maxSize = s.cache.maxSize by
    exact h _
  induction ops with
  | nil => intro s; rfl
  | cons op rest ih =>
    intro s
    rw [List.foldl_cons, ih]
    rcases op with ⟨k, v⟩ | k
    · simp [lruStep, lruSet]
    · rcases hfind : mapFind k s.cache.entries with _ | v
      · rw [lruStep_get_miss s k hfind]
      · rw [lruStep_get_hit s k v hfind]

theorem lruRun_inv {α : Type} (N : Nat) (ops : List (CacheOp α))
    (hNodup : (setKeys ops).Nodup) :
    LruInv (lruRun N ops) ∧
    (∀ k, k ∈ cacheKeys (lruRun N ops).cache → k ∈ setKeys ops) := by
  have hinit : LruInv (⟨⟨N, []⟩, fun _ => 0, 0⟩ : LRURun α) := by
    refine ⟨by simp, by simp, by simp⟩
  obtain ⟨hI, hK⟩ := lruRun_fold_inv ops _ hinit hNodup (by
    intro k hk hmem
    simp [cacheKeys] at hmem)
  refine ⟨hI, ?_⟩
  intro k hk
  rcases hK k hk with h' | h'
  · simp [cacheKeys] at h'
  · exact h'

/-- Claim C2: for every capacity `N` and every trace of `get`/`set`
operations from a fresh cache in which all inserted keys are distinct
(each key is `set` at most once, so every `set` is an insertion of a
distinct key), the `set` performed when the cache is at capacity evicts
exactly one entry, namely the front entry of the map, and that entry is
exactly the least-recently-accessed one: its last-access time is
strictly smaller than the last-access time of every other entry still
in the cache (a `get` hit counts as an access and moves the key to the
most-recently-used end). -/
theorem lru_evicts_least_recently_accessed {α : Type} (N : Nat) (ops : List (CacheOp α))
    (k : String) (v : α) (ke : String) (ve : α) (rest : List (String × α))
    (hN : (setKeys (ops ++ [CacheOp.setOp k v])).Nodup)
    (hent : (lruRun N ops).cache.entries = (ke, ve) :: rest)
    (hcap : N ≤ (lruRun N ops).cache.entries.length) :
    (lruStep (lruRun N ops) (CacheOp.setOp k v)).cache.entries = rest ++ [(k, v)] ∧
    ¬ ke ∈ ((lruStep (lruRun N ops) (CacheOp.setOp k v)).cache.entries.map Prod.fst) ∧
    (∀ p ∈ rest, (lruRun N ops).access ke < (lruRun N ops).access p.1) ∧
    (lruStep (lruRun N ops) (CacheOp.setOp k v)).cache.entries.length
      = (lruRun N ops).cache.entries.length := by
  have hsplit : setKeys (ops ++ [CacheOp.setOp k v]) = setKeys ops ++ [k] := by
    unfold setKeys
    rw [List.filterMap_append]
    rfl
  rw [hsplit, List.nodup_append] at hN
  obtain ⟨hopsN, _, hdisj⟩ := hN
  obtain ⟨⟨hnd, hpw, hacc⟩, hsub⟩ := lruRun_inv N ops hopsN
  have hkfresh : ¬ k ∈ cacheKeys (lruRun N ops).cache := by
    intro hmem
    exact hdisj (hsub k hmem) (List.mem_singleton.mpr rfl)
  have hmax : (lruRun N ops).cache.maxSize = N := lruRun_maxSize N ops
  have hcap' : (lruRun N ops).cache.maxSize ≤ (lruRun N ops).cache.entries.length := by
    rw [hmax]
    exact hcap
  have hbase : (lruSet k v (lruRun N ops).cache).entries = mapSet k v rest := by
    unfold lruSet
    simp only
    rw [if_pos hcap']
    congr 1
    rw [hent]
  have hfreshrest : ∀ p ∈ rest, p.1 ≠ k := by
    intro p hp hpk
    refine hkfresh (List.mem_map.mpr ⟨p, ?_, hpk⟩)
    rw [hent]
    exact List.mem_cons_of_mem _ hp
  have hentries : (lruSet k v (lruRun N ops).cache).entries = rest ++ [(k, v)] := by
    rw [hbase]
    exact mapSet_eq_append k v rest hfreshrest
  have hkeys : (lruRun N ops).cache.entries.map Prod.fst = ke :: rest.map Prod.fst := by
    rw [hent]
    rfl
  refine ⟨hentries, ?_, ?_, ?_⟩
  · intro hmem
    have hmem' : ke ∈ (rest ++ [(k, v)]).map Prod.fst := by
      rw [← hentries]
      exact hmem
    rw [List.map_append, List.mem_append] at hmem'
    rcases hmem' with hmem' | hmem'
    · rw [hkeys] at hnd
      exact (List.nodup_cons.mp hnd).1 hmem'
    · simp only [List.map_cons, List.map_nil, List.mem_singleton] at hmem'
      refine hkfresh ?_
      rw [← hmem']
      unfold cacheKeys
      rw [hkeys]
      exact List.mem_cons_self _ _
  · rw [hent] at hpw
    intro p hp
    exact (List.pairwise_cons.mp hpw).1 p hp
  · have h1 : (lruStep (lruRun N ops) (CacheOp.setOp k v)).cache.entries
        = rest ++ [(k, v)] := hentries
    rw [h1, hent]
    simp

/-- Claim C2 (witness): capacity 2, trace `set a; set b; get a` (the
`get` makes `b` the least recently used), then `set c`: exactly `b` is
evicted — the cache becomes `[a, c]`, `b`'s last access (time 1) is
smaller than `a`'s (time 2, refreshed by the `get`), and the size stays
at capacity. -/
theorem lru_evicts_least_recently_accessed_witness :
    ((setKeys (c2Ops ++ [CacheOp.setOp "c" (3 : Nat)])).Nodup ∧
      (lruRun 2 c2Ops).cache.entries = ("b", (2 : Nat)) :: [("a", 1)] ∧
      2 ≤ (lruRun 2 c2Ops).cache.entries.length) ∧
    ((lruStep (lruRun 2 c2Ops) (CacheOp.setOp "c" 3)).cache.entries
        = [("a", 1)] ++ [("c", 3)] ∧
      ¬ "b" ∈ ((lruStep (lruRun 2 c2Ops) (CacheOp.setOp "c" 3)).cache.entries.map Prod.fst) ∧
      (∀ p ∈ [(("a" : String), (1 : Nat))],
        (lruRun 2 c2Ops).access "b" < (lruRun 2 c2Ops).access p.1) ∧
      (lruStep (lruRun 2 c2Ops) (CacheOp.setOp "c" 3)).cache.entries.length
        = (lruRun 2 c2Ops).cache.entries.length) :=
  ⟨⟨by decide, by decide, by decide⟩,
   lru_evicts_least_recently_accessed 2 c2Ops "c" 3 "b" 2 [("a", 1)]
     (by decide) (by decide) (by decide)⟩

end WordUp
